import Mathlib

set_option maxRecDepth 1000000

/-!
Verification development for the Stratum V2 mining pool core
(`roles/v2/pool/src/lib/mining_pool/mod.rs`).

Bytes are modelled as `List Nat` (each entry a byte value); 32-bit words and
256-bit targets are `Nat` with explicit reduction modulo `2 ^ 32` (resp.
`2 ^ 256`) where the machine arithmetic wraps.  SHA-256 is implemented in
full (FIPS 180-4) so that concrete inputs evaluate inside the kernel.
-/

/-- `2 ^ 32`, the modulus of 32-bit word arithmetic. -/
def M32 : Nat := 4294967296

/-- Rotate a 32-bit word right by `n` bits. -/
def rotr32 (n x : Nat) : Nat := (x >>> n) ||| ((x <<< (32 - n)) % M32)

/-- SHA-256 big sigma 0. -/
def bsig0 (x : Nat) : Nat := rotr32 2 x ^^^ rotr32 13 x ^^^ rotr32 22 x

/-- SHA-256 big sigma 1. -/
def bsig1 (x : Nat) : Nat := rotr32 6 x ^^^ rotr32 11 x ^^^ rotr32 25 x

/-- SHA-256 small sigma 0. -/
def ssig0 (x : Nat) : Nat := rotr32 7 x ^^^ rotr32 18 x ^^^ (x >>> 3)

/-- SHA-256 small sigma 1. -/
def ssig1 (x : Nat) : Nat := rotr32 17 x ^^^ rotr32 19 x ^^^ (x >>> 10)

/-- SHA-256 choice function. -/
def shaCh (x y z : Nat) : Nat := (x &&& y) ^^^ ((x ^^^ 4294967295) &&& z)

/-- SHA-256 majority function. -/
def shaMaj (x y z : Nat) : Nat := (x &&& y) ^^^ (x &&& z) ^^^ (y &&& z)

/-- The 64 SHA-256 round constants. -/
def shaK : List Nat := [
  1116352408, 1899447441, 3049323471, 3921009573, 961987163, 1508970993, 2453635748, 2870763221,
  3624381080, 310598401, 607225278, 1426881987, 1925078388, 2162078206, 2614888103, 3248222580,
  3835390401, 4022224774, 264347078, 604807628, 770255983, 1249150122, 1555081692, 1996064986,
  2554220882, 2821834349, 2952996808, 3210313671, 3336571891, 3584528711, 113926993, 338241895,
  666307205, 773529912, 1294757372, 1396182291, 1695183700, 1986661051, 2177026350, 2456956037,
  2730485921, 2820302411, 3259730800, 3345764771, 3516065817, 3600352804, 4094571909, 275423344,
  430227734, 506948616, 659060556, 883997877, 958139571, 1322822218, 1537002063, 1747873779,
  1955562222, 2024104815, 2227730452, 2361852424, 2428436474, 2756734187, 3204031479, 3329325298]

/-- The SHA-256 initial hash state. -/
def shaH0 : List Nat := [
  1779033703, 3144134277, 1013904242, 2773480762, 1359893119, 2600822924, 528734635, 1541459225]

/-- Big-endian word assembly: 4 consecutive bytes become one 32-bit word. -/
def bytesToWords : List Nat → List Nat
  | a :: b :: c :: d :: rest => (((a * 256 + b) * 256 + c) * 256 + d) :: bytesToWords rest
  | _ => []

/-- Message-schedule extension, keeping the schedule in reverse
(most recent word first); `n` counts the words still to produce. -/
def wExtend : List Nat → Nat → List Nat
  | rev, 0 => rev
  | rev, n + 1 =>
      wExtend (((ssig1 (rev.getD 1 0) + rev.getD 6 0 + ssig0 (rev.getD 14 0)
        + rev.getD 15 0) % M32) :: rev) n

/-- The 64-word message schedule of one block (given as 16 words). -/
def schedule (ws : List Nat) : List Nat := (wExtend ws.reverse 48).reverse

/-- One SHA-256 round: the state is the 8-word list `[a,b,c,d,e,f,g,h]` and
`kw` is the sum of round constant and schedule word. -/
def shaRound (st : List Nat) (kw : Nat) : List Nat :=
  match st with
  | [a, b, c, d, e, f, g, h] =>
      let t1 := (h + bsig1 e + shaCh e f g + kw) % M32
      let t2 := (bsig0 a + shaMaj a b c) % M32
      [(t1 + t2) % M32, a, b, c, (d + t1) % M32, e, f, g]
  | other => other

/-- The SHA-256 compression function on one 64-byte block. -/
def compress (h : List Nat) (block : List Nat) : List Nat :=
  let kw := List.zipWith (fun k w => (k + w) % M32) shaK (schedule (bytesToWords block))
  List.zipWith (fun x y => (x + y) % M32) h (kw.foldl shaRound h)

/-- Number of zero bytes inserted by SHA-256 padding for a message of `l` bytes. -/
def shaPadLen (l : Nat) : Nat := (120 - ((l + 1) % 64)) % 64

/-- A natural number as 8 big-endian bytes. -/
def u64be (n : Nat) : List Nat :=
  [(n >>> 56) % 256, (n >>> 48) % 256, (n >>> 40) % 256, (n >>> 32) % 256,
   (n >>> 24) % 256, (n >>> 16) % 256, (n >>> 8) % 256, n % 256]

/-- A 32-bit word as 4 big-endian bytes. -/
def u32be (n : Nat) : List Nat := [(n >>> 24) % 256, (n >>> 16) % 256, (n >>> 8) % 256, n % 256]

/-- SHA-256 message padding. -/
def shaPad (msg : List Nat) : List Nat :=
  msg ++ 128 :: (List.replicate (shaPadLen msg.length) 0 ++ u64be (8 * msg.length))

/-- Split a byte list into 64-byte blocks; the fuel argument makes the
recursion structural (any fuel at least the length gives all blocks). -/
def chunks64Aux : Nat → List Nat → List (List Nat)
  | 0, _ => []
  | _, [] => []
  | fuel + 1, l => l.take 64 :: chunks64Aux fuel (l.drop 64)

/-- Split a byte list into 64-byte blocks. -/
def chunks64 (l : List Nat) : List (List Nat) := chunks64Aux l.length l

/-- Full SHA-256: bytes in, 32 digest bytes out. -/
def sha256 (msg : List Nat) : List Nat :=
  (((chunks64 (shaPad msg)).foldl compress shaH0).map u32be).flatten

/-- Double SHA-256, the hash Bitcoin uses for block ids and merkle nodes. -/
def dsha256 (msg : List Nat) : List Nat := sha256 (sha256 msg)

/-!
## Merkle root, compact target, block header

`merkle_root_from_path` lives in `protocols/v2/roles-logic-sv2/src/utils.rs`,
which is not among the provided sources; it is modelled from the spec.
The compact-target decoding and the header serialization model
`rust-bitcoin`'s `BlockHeader::u256_from_compact_target` and the consensus
encoding hashed by `BlockHeader::block_hash` (external crate), as the spec
describes them in section 4.2.
-/

/-- Modelled from the spec: `merkle_root_from_path` (roles-logic-sv2 `utils.rs`,
not under the provided sources).  Spec section 4.2: the coinbase is
`coinbase_tx_prefix ++ extranonce ++ coinbase_tx_suffix`, the leaf is its
double SHA-256, and each path sibling is folded in by double SHA-256 of the
concatenation. -/
def merkle_root_from_path (pre suf extranonce : List Nat) (path : List (List Nat)) : List Nat :=
  path.foldl (fun leaf sib => dsha256 (leaf ++ sib)) (dsha256 (pre ++ extranonce ++ suf))

/-- Compact `nbits` decoding into a 256-bit target
(`BlockHeader::u256_from_compact_target`): mantissa over `0x7FFFFF` yields
zero, and the shift is truncated to 256 bits. -/
def compactToTarget (bits : Nat) : Nat :=
  let e := bits >>> 24
  let mant := if e ≤ 3 then (bits &&& 16777215) >>> (8 * (3 - e)) else bits &&& 16777215
  let expt := if e ≤ 3 then 0 else 8 * (e - 3)
  if mant > 8388607 then 0 else (mant <<< expt) % (2 ^ 256)

/-- A 32-bit word as 4 little-endian bytes. -/
def u32le (n : Nat) : List Nat := [n % 256, (n >>> 8) % 256, (n >>> 16) % 256, (n >>> 24) % 256]

/-- The 80-byte Bitcoin block header exactly as `validate_target` builds it:
`version(4,LE) ++ prev_hash(32,internal) ++ merkle_root(32,internal) ++
ntime(4,LE) ++ nbits(4,LE) ++ nonce(4,LE)`. -/
def headerBytes (version : Nat) (prev root : List Nat) (ntime nbits nonce : Nat) : List Nat :=
  u32le version ++ prev ++ root ++ u32le ntime ++ u32le nbits ++ u32le nonce

/-- Big-endian bytes read as a natural number. -/
def beToNat (bs : List Nat) : Nat := bs.foldl (fun a b => a * 256 + b) 0

/-- The share hash as `validate_target` compares it: double SHA-256 of the
header, bytes reversed, read big-endian. -/
def headerHashNat (version : Nat) (prev root : List Nat) (ntime nbits nonce : Nat) : Nat :=
  beToNat (dsha256 (headerBytes version prev root ntime nbits nonce)).reverse

/-!
## The job data model (`mining_pool/mod.rs`, lines 44-250)

Field `coinbase_tx_pre` models the source field `coinbase_tx_prefix`
(renamed for this development).  Byte vectors are `List Nat`, `Uint256`
targets are `Nat`.
-/

/-- The parts of `NewExtendedMiningJob` the pool core reads. -/
structure ExtJobMsg where
  job_id : Nat
  future_job : Bool
  version : Nat
  coinbase_tx_pre : List Nat
  coinbase_tx_suffix : List Nat
  merkle_path : List (List Nat)
deriving DecidableEq, Repr, Inhabited

/-- `PartialJob`: channel opened, no hashable header composed yet. -/
structure PartialJob where
  target : Nat
  extranonce : List Nat
deriving DecidableEq, Repr, Inhabited

/-- `SubmitSolution` as emitted to the template provider. -/
structure SubmitSolutionM where
  template_id : Nat
  version : Nat
  header_timestamp : Nat
  header_nonce : Nat
  coinbase_tx : List Nat
deriving DecidableEq, Repr, Inhabited

/-- `CompleteJob`: everything needed to reconstruct a header. -/
structure CompleteJob where
  template_id : Nat
  target : Nat
  nbits : Nat
  prev_hash : List Nat
  new_shares_sum : Nat
  coinbase_tx_suffix : List Nat
  coinbase_tx_pre : List Nat
  extranonce : List Nat
  merkle_path : List (List Nat)
  merkle_root : List Nat
deriving DecidableEq, Repr, Inhabited

/-- `VelideateTargetResult` (name as in the source). -/
inductive VelideateTargetResult where
  | LessThanBitcoinTarget (hash : List Nat) (shares : Nat) (solution : SubmitSolutionM)
  | LessThanDownstreamTarget (hash : List Nat) (shares : Nat)
  | Invalid (hash : List Nat)
deriving DecidableEq, Repr, Inhabited

/-- `PartialJob::to_complete_standard_job` (lines 50-82): merkle root from the
new extended job fragments and the retained extranonce; share sum reset. -/
def PartialJob.to_complete_standard_job (p : PartialJob) (e : ExtJobMsg)
    (nbits : Nat) (prev_hash : List Nat) (template_id : Nat) : CompleteJob :=
  { target := p.target
    nbits := nbits
    prev_hash := prev_hash
    new_shares_sum := 0
    coinbase_tx_pre := e.coinbase_tx_pre
    coinbase_tx_suffix := e.coinbase_tx_suffix
    merkle_path := e.merkle_path
    extranonce := p.extranonce
    merkle_root := merkle_root_from_path e.coinbase_tx_pre e.coinbase_tx_suffix
      p.extranonce e.merkle_path
    template_id := template_id }

/-- `CompleteJob::get_coinbase` (lines 106-112). -/
def CompleteJob.get_coinbase (j : CompleteJob) : List Nat :=
  j.coinbase_tx_pre ++ j.extranonce ++ j.coinbase_tx_suffix

/-- The merkle root `validate_target` hashes with (lines 120-138): the cached
root when no extranonce suffix is given, otherwise recomputed from the stored
fragments with the suffix-composed extranonce.  `none` models a panic: the
`usize` subtraction `extranonce.len() - suffix.len()` underflows, or the
`assert!(self.extranonce.len() == 32)` fails. -/
def CompleteJob.shareMerkleRoot (j : CompleteJob) (sfx : Option (List Nat)) :
    Option (List Nat) :=
  match sfx with
  | none => some j.merkle_root
  | some s =>
      if s.length ≤ j.extranonce.length then
        if j.extranonce.length = 32 then
          some (merkle_root_from_path j.coinbase_tx_pre j.coinbase_tx_suffix
            (j.extranonce.take (j.extranonce.length - s.length) ++ s) j.merkle_path)
        else none
      else none

/-- `CompleteJob::validate_target` (lines 113-172).  Returns the result the
source returns together with the job after its `new_shares_sum` mutation;
`none` models a panic in the suffix branch. -/
def CompleteJob.validate_target (j : CompleteJob) (nonce version ntime : Nat)
    (sfx : Option (List Nat)) : Option (VelideateTargetResult × CompleteJob) :=
  match CompleteJob.shareMerkleRoot j sfx with
  | none => none
  | some root =>
      let bitcoin_target := compactToTarget j.nbits
      let hashBytes := dsha256 (headerBytes version j.prev_hash root ntime j.nbits nonce)
      let hash := beToNat hashBytes.reverse
      if hash ≤ bitcoin_target then
        some (VelideateTargetResult.LessThanBitcoinTarget hashBytes (j.new_shares_sum + 1)
          { template_id := j.template_id
            version := version
            header_timestamp := ntime
            header_nonce := nonce
            coinbase_tx := CompleteJob.get_coinbase j },
          { j with new_shares_sum := j.new_shares_sum + 1 })
      else if hash ≤ j.target then
        some (VelideateTargetResult.LessThanDownstreamTarget hashBytes (j.new_shares_sum + 1),
          { j with new_shares_sum := j.new_shares_sum + 1 })
      else
        some (VelideateTargetResult.Invalid hashBytes, j)

/-- `CompleteJob::update_job` (lines 174-204), translated exactly: the stored
fragments become the new extended job fragments, but the recomputed merkle
root is derived from the OLD `coinbase_tx_prefix`/`coinbase_tx_suffix`
(`self.…` in the source) together with the NEW merkle path. -/
def CompleteJob.update_job (j : CompleteJob) (e : ExtJobMsg)
    (nbits : Nat) (prev_hash : List Nat) (template_id : Nat) : CompleteJob :=
  { target := j.target
    nbits := nbits
    prev_hash := prev_hash
    new_shares_sum := 0
    coinbase_tx_pre := e.coinbase_tx_pre
    coinbase_tx_suffix := e.coinbase_tx_suffix
    merkle_path := e.merkle_path
    extranonce := j.extranonce
    merkle_root := merkle_root_from_path j.coinbase_tx_pre j.coinbase_tx_suffix
      j.extranonce e.merkle_path
    template_id := template_id }

/-- `Job` (lines 207-211): `Part` models the `Partial` variant and `Comp`
the `Complete` variant. -/
inductive Job where
  | Part (p : PartialJob)
  | Comp (c : CompleteJob)
deriving DecidableEq, Repr, Inhabited

/-- `Job::update_job` (lines 217-237). -/
def Job.updateJob (j : Job) (e : ExtJobMsg) (nbits : Nat) (prev_hash : List Nat)
    (template_id : Nat) : Job :=
  match j with
  | .Part p => .Comp (p.to_complete_standard_job e nbits prev_hash template_id)
  | .Comp c => .Comp (c.update_job e nbits prev_hash template_id)

/-- `Job::make_partial` (lines 239-249). -/
def Job.makePart (j : Job) : Job :=
  match j with
  | .Part p => .Part p
  | .Comp c => .Part { target := c.target, extranonce := c.extranonce }

/-!
## The downstream state machine (`mining_pool/mod.rs`, lines 260-567)

`HashMap`s are modelled as association lists; all spec-level statements read
them through `alookup`, so entry order never matters.  Only the state fields
the claims mention are modelled; frame I/O handles, loggers and id counters
are omitted.
-/

/-- Association-list lookup (models `HashMap::get`). -/
def alookup {α : Type} (m : List (Nat × α)) (k : Nat) : Option α :=
  (m.find? (fun p => p.1 == k)).map Prod.snd

/-- Association-list removal (models `HashMap::remove`). -/
def aremove {α : Type} (m : List (Nat × α)) (k : Nat) : List (Nat × α) :=
  m.filter (fun p => p.1 != k)

/-- Association-list insert-or-replace (models `HashMap::insert`; entry
order differs from the hash map but every statement reads maps through
`alookup`, which is order-insensitive). -/
def ainsert {α : Type} (m : List (Nat × α)) (k : Nat) (v : α) : List (Nat × α) :=
  (k, v) :: aremove m k

/-- The mining `SetNewPrevHash` message (`NewPrevHash` in the source). -/
structure PrevHashMsg where
  channel_id : Nat
  job_id : Nat
  prev_hash : List Nat
  min_ntime : Nat
  nbits : Nat
deriving DecidableEq, Repr, Inhabited

/-- The template-distribution `SetNewPrevHash` the pool latches
(`last_new_prev_hash`). -/
structure PrevHashTD where
  template_id : Nat
  prev_hash : List Nat
  n_bits : Nat
deriving DecidableEq, Repr, Inhabited

/-- The `Downstream` state fields the claims are about (lines 260-281). -/
structure DownstreamSt where
  jobs : List (Nat × Job)
  future_jobs : List (Nat × (ExtJobMsg × Nat))
  last_prev_hash : Option (List Nat)
  last_nbits : Option Nat
  last_valid_extended_job : Option (ExtJobMsg × Nat)
deriving DecidableEq, Repr, Inhabited

/-- `Downstream::check_target` (lines 300-324).  The outer `Option` is `none`
when `validate_target` panics; otherwise `Except.error ()` is the source
`Err(())` for a missing or `Partial` job, and `Except.ok` carries the
validation result.  The returned state is the downstream after the call. -/
def Downstream.check_target (d : DownstreamSt) (channel_id nonce version ntime : Nat)
    (sfx : Option (List Nat)) : Option ((Except Unit VelideateTargetResult) × DownstreamSt) :=
  match alookup d.jobs channel_id with
  | some (Job.Comp job) =>
      match CompleteJob.validate_target job nonce version ntime sfx with
      | none => none
      | some (res, job2) =>
          let newJob :=
            match res with
            | VelideateTargetResult.LessThanBitcoinTarget _ _ _ => Job.makePart (Job.Comp job2)
            | VelideateTargetResult.LessThanDownstreamTarget _ _ => Job.Comp job2
            | VelideateTargetResult.Invalid _ => Job.Comp job2
          some (Except.ok res, { d with jobs := ainsert d.jobs channel_id newJob })
  | some (Job.Part _) => some (Except.error (), d)
  | none => some (Except.error (), d)

/-- `Downstream::on_new_prev_hash_sync` (lines 492-514), state part: if the
message job id names a future job, promote it into every job of the job
table; latch `last_nbits` and `last_prev_hash`; clear `future_jobs`
(the source assigns a fresh `HashMap`). -/
def Downstream.on_new_prev_hash_sync (d : DownstreamSt) (m : PrevHashMsg) : DownstreamSt :=
  let d1 :=
    match alookup d.future_jobs m.job_id with
    | some fj =>
        { d with
          jobs := d.jobs.map (fun p : Nat × Job => (p.1, Job.updateJob p.2 fj.1 m.nbits m.prev_hash fj.2))
          future_jobs := aremove d.future_jobs m.job_id }
    | none => d
  { d1 with
    last_nbits := some m.nbits
    last_prev_hash := some m.prev_hash
    future_jobs := [] }

/-- `Downstream::on_new_extended_job` (lines 530-566), state part: a future
job is inserted into `future_jobs`; a non-future job updates every job in the
table with `last_nbits.unwrap()` and `last_prev_hash.unwrap()` — `none`
models the panic of those unwraps, reachable only when the job table is
non-empty (the unwraps sit inside the loop body). -/
def Downstream.on_new_extended_job (d : DownstreamSt) (m : ExtJobMsg)
    (template_id : Nat) : Option DownstreamSt :=
  if !m.future_job then
    match d.jobs with
    | [] => some d
    | _ =>
        match d.last_nbits, d.last_prev_hash with
        | some nb, some ph =>
            some { d with
              jobs := d.jobs.map (fun p : Nat × Job => (p.1, Job.updateJob p.2 m nb ph template_id)) }
        | _, _ => none
  else
    some { d with future_jobs := ainsert d.future_jobs m.job_id (m, template_id) }

/-- `Downstream::new` (lines 327-460), state part.  `extended_jobs` is what
`JobsCreators::new_group_channel` returned and `job_id_of` models
`job_id_from_template(·, id).unwrap()` (both spec-modelled external
interfaces: the job creator is not among the provided sources).  Future
initial jobs seed `future_jobs`; the last non-future initial job seeds
`last_valid_extended_job`; failing that, a known previous hash picks the
initial job whose id the job creator maps the template to; finally a known
previous hash is replayed through `on_new_prev_hash_sync`. -/
def Downstream.new_state (extended_jobs : List (ExtJobMsg × Nat))
    (last_new_prev_hash : Option PrevHashTD) (job_id_of : Nat → Nat) : DownstreamSt :=
  let future_jobs := extended_jobs.foldl
    (fun m jb => if jb.1.future_job then ainsert m jb.1.job_id jb else m) []
  let lvj0 := extended_jobs.foldl
    (fun (acc : Option (ExtJobMsg × Nat)) (jb : ExtJobMsg × Nat) => if jb.1.future_job then acc else some jb) none
  let lvj :=
    match lvj0, last_new_prev_hash with
    | none, some ph =>
        (extended_jobs.find? (fun jb => jb.1.job_id == job_id_of ph.template_id)).map
          (fun jb => (jb.1, ph.template_id))
    | x, _ => x
  let d0 : DownstreamSt :=
    { jobs := []
      future_jobs := future_jobs
      last_prev_hash := none
      last_nbits := none
      last_valid_extended_job := lvj }
  match last_new_prev_hash with
  | none => d0
  | some ph =>
      Downstream.on_new_prev_hash_sync d0
        { channel_id := 0
          job_id := job_id_of ph.template_id
          prev_hash := ph.prev_hash
          min_ntime := 0
          nbits := ph.n_bits }

/-- An event a live downstream can process.  `openChannel` is modelled from
the spec (section 4.2 job lifecycle, step 1: the message handler, not among
the provided sources, creates a `Partial` job with an assigned target and
extranonce when a channel is opened). -/
inductive DsEvent where
  | extJob (m : ExtJobMsg) (template_id : Nat)
  | prevHash (m : PrevHashMsg)
  | openChannel (channel_id : Nat) (target : Nat) (extranonce : List Nat)
  | share (channel_id nonce version ntime : Nat) (sfx : Option (List Nat))
deriving Repr, Inhabited

/-- One downstream step; `none` models a panic inside the handler. -/
def dsStep (d : DownstreamSt) : DsEvent → Option DownstreamSt
  | .extJob m tid => Downstream.on_new_extended_job d m tid
  | .prevHash m => some (Downstream.on_new_prev_hash_sync d m)
  | .openChannel c t e =>
      some { d with jobs := ainsert d.jobs c (Job.Part { target := t, extranonce := e }) }
  | .share c n v t sfx => (Downstream.check_target d c n v t sfx).map Prod.snd

/-- Run a list of events from a state. -/
def dsRun (d : DownstreamSt) : List DsEvent → Option DownstreamSt
  | [] => some d
  | e :: evs =>
      match dsStep d e with
      | none => none
      | some d2 => dsRun d2 evs

/-!
## Observation tracking for the `last_valid_extended_job` claim

The claim speaks of "a non-future extended job has been observed" and "a
prev-hash activated a previously future job"; these are history predicates,
computed alongside the run.
-/

/-- Whether the construction inputs already count as an observation in the
sense of the claim: a non-future job in the initial batch, or a known
previous hash whose mapped job id activates one of the (future) initial
jobs. -/
def initialObservedOrActivated (extended_jobs : List (ExtJobMsg × Nat))
    (lph : Option PrevHashTD) (job_id_of : Nat → Nat) : Bool :=
  extended_jobs.any (fun jb => !jb.1.future_job) ||
  (match lph with
   | none => false
   | some ph =>
       extended_jobs.any (fun jb => jb.1.future_job && jb.1.job_id == job_id_of ph.template_id))

/-- Run events while tracking whether a non-future extended job was observed
or a `SetNewPrevHash` activated a previously future job. -/
def obsRun (d : DownstreamSt) (acc : Bool) : List DsEvent → Option (DownstreamSt × Bool)
  | [] => some (d, acc)
  | e :: evs =>
      let acc2 := acc ||
        (match e with
         | .extJob m _ => !m.future_job
         | .prevHash m => (alookup d.future_jobs m.job_id).isSome
         | _ => false)
      match dsStep d e with
      | none => none
      | some d2 => obsRun d2 acc2 evs

/-!
## The pool barrier (`mining_pool/mod.rs`, lines 626-701)

`Pool::on_new_prev_hash` and `Pool::on_new_template` are two long-running
tasks; their interleavings are modelled as a transition system.  Each task
has a program counter: the template task is `fanout` from the moment it
dequeues a template until it has called `on_new_extended_job` on the last
group downstream, after which it sets `new_template_processed := true`
(lines 697-699) in the same lock-free-of-suspension region; the prev-hash
task polls `new_template_processed` (line 628, the 1 ms sleep loop), and the
step that exits the poll resets the flag to false (lines 631-633) and begins
its own fan-out.  The counters record how many template fan-outs have
completed and how many prev-hash fan-outs have begun.
-/

/-- Program counter of the `on_new_template` task. -/
inductive TPhase where
  | idle
  | fanout
deriving DecidableEq, Repr, Inhabited

/-- Program counter of the `on_new_prev_hash` task. -/
inductive PPhase where
  | idle
  | fanout
deriving DecidableEq, Repr, Inhabited

/-- The shared-flag state of the two fan-out tasks. -/
structure PoolSync where
  new_template_processed : Bool
  tPhase : TPhase
  pPhase : PPhase
  templatesDone : Nat
  prevHashesBegun : Nat
deriving DecidableEq, Repr, Inhabited

/-- `Pool::start` initial state: `new_template_processed: false`, both loops
waiting on their queues. -/
def PoolSync.init : PoolSync :=
  { new_template_processed := false
    tPhase := TPhase.idle
    pPhase := PPhase.idle
    templatesDone := 0
    prevHashesBegun := 0 }

/-- One interleaved step of the two fan-out loops. -/
inductive PoolStep : PoolSync → PoolSync → Prop where
  | tStart (s : PoolSync) : s.tPhase = TPhase.idle →
      PoolStep s { s with tPhase := TPhase.fanout }
  | tFinish (s : PoolSync) : s.tPhase = TPhase.fanout →
      PoolStep s { s with
        tPhase := TPhase.idle
        new_template_processed := true
        templatesDone := s.templatesDone + 1 }
  | pPoll (s : PoolSync) : s.pPhase = PPhase.idle → s.new_template_processed = false →
      PoolStep s s
  | pBegin (s : PoolSync) : s.pPhase = PPhase.idle → s.new_template_processed = true →
      PoolStep s { s with
        pPhase := PPhase.fanout
        new_template_processed := false
        prevHashesBegun := s.prevHashesBegun + 1 }
  | pFinish (s : PoolSync) : s.pPhase = PPhase.fanout →
      PoolStep s { s with pPhase := PPhase.idle }

/-- States reachable from `Pool::start` by interleaving the two loops. -/
inductive PoolReachable : PoolSync → Prop where
  | init : PoolReachable PoolSync.init
  | step {s t : PoolSync} : PoolReachable s → PoolStep s t → PoolReachable t

/-!
## Concrete inputs for witnesses and counterexamples

`wJobLTB` is the scenario S1 job of the spec: regtest difficulty
(`nbits = 0x207fffff = 545259519`), all-zero previous hash, empty coinbase
fragments, empty merkle path, 32-byte zero extranonce, downstream target 0.
A share with `nonce = 0, version = 2, ntime = 0` and extranonce suffix `[1]`
hashes below the regtest network target.
-/

/-- 32 zero bytes. -/
def zeros32 : List Nat := List.replicate 32 0

/-- A complete job at regtest difficulty with trivial coinbase data. -/
def wJobLTB : CompleteJob :=
  { template_id := 9
    target := 0
    nbits := 545259519
    prev_hash := zeros32
    new_shares_sum := 0
    coinbase_tx_suffix := []
    coinbase_tx_pre := []
    extranonce := zeros32
    merkle_path := []
    merkle_root := merkle_root_from_path [] [] zeros32 [] }

/-- The block hash (digest byte order) of the `wJobLTB` share with
`nonce = 0, version = 2, ntime = 0` and extranonce suffix `[1]`. -/
def wHashLTB : List Nat :=
  [75, 156, 73, 47, 13, 23, 141, 224, 157, 197, 146, 217, 225, 13, 142, 87,
   39, 79, 38, 11, 199, 243, 129, 88, 99, 222, 241, 165, 141, 169, 106, 24]

/-- The result of validating the `wJobLTB` share with no extranonce suffix at
`nonce = 5` (kept as a pair via `getD`; the validation is total there). -/
def wOutNone : VelideateTargetResult × CompleteJob :=
  (CompleteJob.validate_target wJobLTB 5 2 0 none).getD default

/-- A future initial extended job for the `last_valid_extended_job` runs. -/
def c4FutureJob : ExtJobMsg :=
  { job_id := 1
    future_job := true
    version := 2
    coinbase_tx_pre := []
    coinbase_tx_suffix := []
    merkle_path := [] }

/-- A non-future extended job observed after construction. -/
def c4NonFutureJob : ExtJobMsg :=
  { job_id := 2
    future_job := false
    version := 2
    coinbase_tx_pre := []
    coinbase_tx_suffix := []
    merkle_path := [] }

/-- A downstream constructed from one future initial job and no known
previous hash. -/
def c4Init : DownstreamSt := Downstream.new_state [(c4FutureJob, 5)] none (fun _ => 0)

/-- The old complete job for the `update_job` merkle-root divergence: its
stored coinbase fragments are `[1]` and `[]`. -/
def c1Old : CompleteJob :=
  { template_id := 1
    target := 0
    nbits := 0
    prev_hash := []
    new_shares_sum := 3
    coinbase_tx_suffix := []
    coinbase_tx_pre := [1]
    extranonce := []
    merkle_path := []
    merkle_root := merkle_root_from_path [1] [] [] [] }

/-- The new extended job for the `update_job` divergence: fragments `[2]`
and `[]`. -/
def c1New : ExtJobMsg :=
  { job_id := 2
    future_job := false
    version := 2
    coinbase_tx_pre := [2]
    coinbase_tx_suffix := []
    merkle_path := [] }

/-- Whether a validation result is `LessThanBitcoinTarget`. -/
def VelideateTargetResult.isLTB : VelideateTargetResult → Bool
  | .LessThanBitcoinTarget _ _ _ => true
  | _ => false

/-- Whether a validation result is `LessThanDownstreamTarget`. -/
def VelideateTargetResult.isLTD : VelideateTargetResult → Bool
  | .LessThanDownstreamTarget _ _ => true
  | _ => false

/-- Apply a sequence of share submissions `(nonce, version, ntime, suffix)`
to a complete job, threading the mutated job; `none` when some validation
panics. -/
def applyShares (j : CompleteJob) :
    List (Nat × Nat × Nat × Option (List Nat)) → Option CompleteJob
  | [] => some j
  | a :: rest =>
      match CompleteJob.validate_target j a.1 a.2.1 a.2.2.1 a.2.2.2 with
      | none => none
      | some (_, j2) => applyShares j2 rest

/-- The `SubmitSolution` the `wJobLTB` network-target share produces. -/
def wSolLTB : SubmitSolutionM :=
  { template_id := 9
    version := 2
    header_timestamp := 0
    header_nonce := 0
    coinbase_tx := zeros32 }

/-- The validation outcome of the `wJobLTB` network-target share. -/
def wOutLTB : VelideateTargetResult × CompleteJob :=
  (CompleteJob.validate_target wJobLTB 0 2 0 (some [1])).getD default

/-- A downstream whose channel 1 holds the complete job `wJobLTB`. -/
def wDown : DownstreamSt :=
  { jobs := [(1, Job.Comp wJobLTB)]
    future_jobs := []
    last_prev_hash := some zeros32
    last_nbits := some 545259519
    last_valid_extended_job := none }

/-- The outcome of `check_target` on `wDown` for the network-target share. -/
def wDownOut : (Except Unit VelideateTargetResult) × DownstreamSt :=
  (Downstream.check_target wDown 1 0 2 0 (some [1])).getD (Except.error (), default)

/-- A downstream holding one `Partial` job and one future extended job,
for exercising `on_new_prev_hash_sync`. -/
def c7Down : DownstreamSt :=
  { jobs := [(1, Job.Part { target := 0, extranonce := [] })]
    future_jobs := [(1, (c4FutureJob, 11))]
    last_prev_hash := none
    last_nbits := none
    last_valid_extended_job := none }

/-- A prev-hash message whose job id names the future job of `c7Down`. -/
def c7Msg : PrevHashMsg :=
  { channel_id := 1
    job_id := 1
    prev_hash := [7]
    min_ntime := 0
    nbits := 19 }

/-- Two no-suffix share submissions against `wJobLTB`. -/
def c8Shares : List (Nat × Nat × Nat × Option (List Nat)) :=
  [(5, 2, 0, none), (6, 2, 0, none)]

/-- The pool-barrier state after one completed template fan-out. -/
def c9AfterTemplate : PoolSync :=
  { new_template_processed := true
    tPhase := TPhase.idle
    pPhase := PPhase.idle
    templatesDone := 1
    prevHashesBegun := 0 }

/-- The pool-barrier state after the prev-hash fan-out has begun. -/
def c9AfterBegin : PoolSync :=
  { new_template_processed := false
    tPhase := TPhase.idle
    pPhase := PPhase.fanout
    templatesDone := 1
    prevHashesBegun := 1 }

/-- Construction-time characterization of `last_valid_extended_job`: a
non-future initial job exists, or all initial jobs are future and a known
previous hash maps (through the job creator) to the id of one of them. -/
def newStateLvjSome (ejs : List (ExtJobMsg × Nat)) (lph : Option PrevHashTD)
    (jio : Nat → Nat) : Bool :=
  ejs.any (fun jb => !jb.1.future_job) ||
  (match lph with
   | none => false
   | some ph => (ejs.find? (fun jb => jb.1.job_id == jio ph.template_id)).isSome)

/-- `wDown` after the network-target share: channel 1 demoted to `Partial`. -/
def wDownAfter : DownstreamSt :=
  { wDown with jobs := [(1, Job.Part { target := 0, extranonce := zeros32 })] }

/-- The job after applying the two `c8Shares` submissions to `wJobLTB`. -/
def c8Out : CompleteJob := (applyShares wJobLTB c8Shares).getD default

-- Decidable equality for `Except`, so that concrete `check_target`
-- outcomes can settle by `decide`.
deriving instance DecidableEq for Except

/-!
## Theorems

Sanity checks of the SHA-256 implementation against FIPS 180-4 test vectors,
helper lemmas about the association-list maps and job updates, then one
theorem per claim.
-/

theorem sha256_empty_vector : sha256 [] = [227, 176, 196, 66, 152, 252, 28, 20,
    154, 251, 244, 200, 153, 111, 185, 36, 39, 174, 65, 228, 100, 155, 147, 76,
    164, 149, 153, 27, 120, 82, 184, 85] := by
  decide

theorem sha256_abc_vector : sha256 [97, 98, 99] = [186, 120, 22, 191, 143, 1,
    207, 234, 65, 65, 64, 222, 93, 174, 34, 35, 176, 3, 97, 163, 150, 23, 122,
    156, 180, 16, 255, 97, 242, 0, 21, 173] := by
  decide

theorem alookup_cons {α : Type} (a : Nat × α) (m : List (Nat × α)) (c : Nat) :
    alookup (a :: m) c = if a.1 = c then some a.2 else alookup m c := by
  by_cases h : a.1 = c
  · simp [alookup, List.find?, show (a.1 == c) = true by simpa using h, h]
  · simp [alookup, List.find?, show (a.1 == c) = false by simpa using h, h]

theorem alookup_aremove {α : Type} (m : List (Nat × α)) (k c : Nat) :
    alookup (aremove m k) c = if c = k then none else alookup m c := by
  induction m with
  | nil => simp [alookup, aremove]
  | cons a m ih =>
      by_cases hak : a.1 = k <;> by_cases hck : c = k <;> by_cases hac : a.1 = c <;>
        simp_all [aremove, alookup_cons, List.filter_cons]

theorem alookup_ainsert {α : Type} (m : List (Nat × α)) (k : Nat) (v : α) (c : Nat) :
    alookup (ainsert m k v) c = if k = c then some v else alookup m c := by
  by_cases h : k = c
  · subst h; simp [ainsert, alookup_cons]
  · rw [ainsert, alookup_cons, alookup_aremove]
    simp [show ¬ (k, v).1 = c from h, show ¬ c = k from fun hh => h hh.symm]

theorem alookup_mapval {α β : Type} (f : α → β) (m : List (Nat × α)) (c : Nat) :
    alookup (m.map (fun p => (p.1, f p.2))) c = (alookup m c).map f := by
  induction m with
  | nil => simp [alookup]
  | cons a m ih =>
      by_cases h : a.1 = c <;> simp [alookup_cons, h, ih]

/-- **C1** (code bug evaluation): at a concrete input where the old job
fragments `[1]`/`[]` differ from the new extended job fragments `[2]`/`[]`,
`update_job` stores the new fragments but a merkle root derived from the old
ones, so the stored root is NOT the root `to_complete_standard_job` computes
from the new job and the same (retained) extranonce. -/
theorem claim_C1_code_bug_eval :
    (CompleteJob.update_job c1Old c1New 0 [] 7).coinbase_tx_pre = [2] ∧
    (CompleteJob.update_job c1Old c1New 0 [] 7).coinbase_tx_suffix = [] ∧
    (CompleteJob.update_job c1Old c1New 0 [] 7).merkle_root =
      merkle_root_from_path [1] [] [] [] ∧
    (PartialJob.to_complete_standard_job { target := 0, extranonce := [] }
        c1New 0 [] 7).merkle_root = merkle_root_from_path [2] [] [] [] ∧
    (CompleteJob.update_job c1Old c1New 0 [] 7).merkle_root ≠
      (PartialJob.to_complete_standard_job { target := 0, extranonce := [] }
        c1New 0 [] 7).merkle_root := by
  refine ⟨rfl, rfl, rfl, rfl, ?_⟩
  decide

/-- **C2** (counterexample): on the concrete network-target share with
extranonce suffix `[1]`, the emitted solution's `coinbase_tx` is the job's
stored all-zero extranonce, not the suffix-composed extranonce used for the
merkle root in step 1. -/
theorem claim_C2_counterexample :
    CompleteJob.validate_target wJobLTB 0 2 0 (some [1]) =
      some (VelideateTargetResult.LessThanBitcoinTarget wHashLTB 1 wSolLTB,
        { wJobLTB with new_shares_sum := 1 }) ∧
    wSolLTB.coinbase_tx ≠
      wJobLTB.coinbase_tx_pre ++ (List.replicate 31 0 ++ [1]) ++ wJobLTB.coinbase_tx_suffix := by
  constructor
  · decide
  · decide

/-- **C2** (amended): whenever `validate_target` returns
`LessThanBitcoinTarget`, the emitted solution carries the job's template id,
the submitted version, ntime and nonce, and a `coinbase_tx` equal to
`coinbase_tx_prefix ++ stored extranonce ++ coinbase_tx_suffix` (the job's
STORED extranonce, not the suffix-composed one). -/
theorem claim_C2_amended (j : CompleteJob) (nonce version ntime : Nat)
    (sfx : Option (List Nat)) (hB : List Nat) (n : Nat) (sol : SubmitSolutionM)
    (j' : CompleteJob)
    (h : CompleteJob.validate_target j nonce version ntime sfx =
      some (VelideateTargetResult.LessThanBitcoinTarget hB n sol, j')) :
    sol.template_id = j.template_id ∧ sol.version = version ∧
    sol.header_timestamp = ntime ∧ sol.header_nonce = nonce ∧
    sol.coinbase_tx = j.coinbase_tx_pre ++ j.extranonce ++ j.coinbase_tx_suffix := by
  simp only [CompleteJob.validate_target] at h
  split at h
  · exact absurd h (by simp)
  · split at h
    · simp only [Option.some.injEq, Prod.mk.injEq,
        VelideateTargetResult.LessThanBitcoinTarget.injEq] at h
      obtain ⟨⟨_, _, hsol⟩, _⟩ := h
      subst hsol
      exact ⟨rfl, rfl, rfl, rfl, rfl⟩
    · split at h
      · simp at h
      · simp at h

/-- **C2** witness: the amended claim evaluated on the concrete
network-target share. -/
theorem claim_C2_witness :
    wSolLTB.template_id = wJobLTB.template_id ∧ wSolLTB.version = 2 ∧
    wSolLTB.header_timestamp = 0 ∧ wSolLTB.header_nonce = 0 ∧
    wSolLTB.coinbase_tx =
      wJobLTB.coinbase_tx_pre ++ wJobLTB.extranonce ++ wJobLTB.coinbase_tx_suffix :=
  claim_C2_amended wJobLTB 0 2 0 (some [1]) wHashLTB 1 wSolLTB
    { wJobLTB with new_shares_sum := 1 } (by decide)

/-- **C3**: whenever `validate_target` returns (with `root` the merkle root
selected in step 1), the result is `LessThanBitcoinTarget` iff the
byte-reversed double-SHA-256 of the 80-byte header read big-endian is at
most the target decoded from `nbits`; failing that, it is
`LessThanDownstreamTarget` iff that integer is at most the downstream
target; failing both, it is `Invalid`.  Both comparisons are inclusive and
the network target is tested first. -/
theorem claim_C3 (j : CompleteJob) (nonce version ntime : Nat)
    (sfx : Option (List Nat)) (root : List Nat) (r : VelideateTargetResult)
    (j' : CompleteJob)
    (hroot : CompleteJob.shareMerkleRoot j sfx = some root)
    (h : CompleteJob.validate_target j nonce version ntime sfx = some (r, j')) :
    (r.isLTB = true ↔
      headerHashNat version j.prev_hash root ntime j.nbits nonce ≤ compactToTarget j.nbits) ∧
    (headerHashNat version j.prev_hash root ntime j.nbits nonce > compactToTarget j.nbits →
      (r.isLTD = true ↔
        headerHashNat version j.prev_hash root ntime j.nbits nonce ≤ j.target)) ∧
    (headerHashNat version j.prev_hash root ntime j.nbits nonce > compactToTarget j.nbits →
      headerHashNat version j.prev_hash root ntime j.nbits nonce > j.target →
      r = VelideateTargetResult.Invalid
        (dsha256 (headerBytes version j.prev_hash root ntime j.nbits nonce))) := by
  have e1 : headerHashNat version j.prev_hash root ntime j.nbits nonce =
      beToNat (dsha256 (headerBytes version j.prev_hash root ntime j.nbits nonce)).reverse := rfl
  simp only [CompleteJob.validate_target, hroot] at h
  by_cases hbt : beToNat (dsha256 (headerBytes version j.prev_hash root ntime
      j.nbits nonce)).reverse ≤ compactToTarget j.nbits
  · rw [if_pos hbt] at h
    simp only [Option.some.injEq, Prod.mk.injEq] at h
    obtain ⟨hr, _⟩ := h
    subst hr
    refine ⟨⟨fun _ => by rw [e1]; exact hbt, fun _ => rfl⟩, ?_, ?_⟩
    · intro hgt; rw [e1] at hgt; omega
    · intro hgt _; rw [e1] at hgt; omega
  · rw [if_neg hbt] at h
    by_cases htg : beToNat (dsha256 (headerBytes version j.prev_hash root ntime
        j.nbits nonce)).reverse ≤ j.target
    · rw [if_pos htg] at h
      simp only [Option.some.injEq, Prod.mk.injEq] at h
      obtain ⟨hr, _⟩ := h
      subst hr
      refine ⟨?_, ?_, ?_⟩
      · simp only [VelideateTargetResult.isLTD, VelideateTargetResult.isLTB]
        constructor
        · intro habs; exact absurd habs (by simp)
        · intro hle; rw [e1] at hle; exact absurd hle hbt
      · intro _; exact ⟨fun _ => by rw [e1]; exact htg, fun _ => rfl⟩
      · intro _ hgt; rw [e1] at hgt; omega
    · rw [if_neg htg] at h
      simp only [Option.some.injEq, Prod.mk.injEq] at h
      obtain ⟨hr, _⟩ := h
      subst hr
      refine ⟨?_, ?_, ?_⟩
      · simp only [VelideateTargetResult.isLTB]
        constructor
        · intro habs; exact absurd habs (by simp)
        · intro hle; rw [e1] at hle; exact absurd hle hbt
      · intro _
        simp only [VelideateTargetResult.isLTD]
        constructor
        · intro habs; exact absurd habs (by simp)
        · intro hle; rw [e1] at hle; exact absurd hle htg
      · intro _ _; rfl

/-- **C3** witness: the characterization evaluated on a concrete share
(`wJobLTB`, no extranonce suffix, nonce 5). -/
theorem claim_C3_witness :
    ((wOutNone.1.isLTB = true ↔
      headerHashNat 2 wJobLTB.prev_hash wJobLTB.merkle_root 0 wJobLTB.nbits 5 ≤
        compactToTarget wJobLTB.nbits) ∧
    (headerHashNat 2 wJobLTB.prev_hash wJobLTB.merkle_root 0 wJobLTB.nbits 5 >
        compactToTarget wJobLTB.nbits →
      (wOutNone.1.isLTD = true ↔
        headerHashNat 2 wJobLTB.prev_hash wJobLTB.merkle_root 0 wJobLTB.nbits 5 ≤
          wJobLTB.target)) ∧
    (headerHashNat 2 wJobLTB.prev_hash wJobLTB.merkle_root 0 wJobLTB.nbits 5 >
        compactToTarget wJobLTB.nbits →
      headerHashNat 2 wJobLTB.prev_hash wJobLTB.merkle_root 0 wJobLTB.nbits 5 >
        wJobLTB.target →
      wOutNone.1 = VelideateTargetResult.Invalid
        (dsha256 (headerBytes 2 wJobLTB.prev_hash wJobLTB.merkle_root 0 wJobLTB.nbits 5)))) :=
  claim_C3 wJobLTB 5 2 0 none wJobLTB.merkle_root wOutNone.1 wOutNone.2 rfl rfl

/-- The suffix branch of the merkle-root selection panics exactly when the
stored extranonce is not 32 bytes long or the suffix is longer than 32. -/
theorem shareMerkleRoot_none_iff (j : CompleteJob) (s : List Nat) :
    CompleteJob.shareMerkleRoot j (some s) = none ↔
    ¬ (j.extranonce.length = 32 ∧ s.length ≤ 32) := by
  simp only [CompleteJob.shareMerkleRoot]
  by_cases h1 : s.length ≤ j.extranonce.length
  · rw [if_pos h1]
    by_cases h2 : j.extranonce.length = 32
    · rw [if_pos h2]
      constructor
      · intro hx; exact absurd hx (by simp)
      · intro hx; exact absurd ⟨h2, by omega⟩ hx
    · rw [if_neg h2]
      exact ⟨fun _ hx => h2 hx.1, fun _ => rfl⟩
  · rw [if_neg h1]
    constructor
    · intro _ hx; obtain ⟨h32, hs⟩ := hx; rw [h32] at h1; exact h1 hs
    · intro _; rfl

/-- `validate_target` panics exactly when the merkle-root selection does. -/
theorem validate_target_none_iff (j : CompleteJob) (nonce version ntime : Nat)
    (sfx : Option (List Nat)) :
    CompleteJob.validate_target j nonce version ntime sfx = none ↔
    CompleteJob.shareMerkleRoot j sfx = none := by
  cases hroot : CompleteJob.shareMerkleRoot j sfx with
  | none => simp [CompleteJob.validate_target, hroot]
  | some root =>
      simp only [CompleteJob.validate_target, hroot]
      constructor
      · intro h
        split at h
        · simp_all
        · split at h <;> simp_all
      · intro h; simp at h

/-- **C10**: with a supplied extranonce suffix `s`, `validate_target` panics
iff the stored extranonce is not exactly 32 bytes or `s` is longer than 32
bytes; under those preconditions the suffix composition and merkle-root
recomputation complete (the call returns). -/
theorem claim_C10 (j : CompleteJob) (nonce version ntime : Nat) (s : List Nat) :
    CompleteJob.validate_target j nonce version ntime (some s) = none ↔
    ¬ (j.extranonce.length = 32 ∧ s.length ≤ 32) :=
  (validate_target_none_iff j nonce version ntime (some s)).trans
    (shareMerkleRoot_none_iff j s)

/-- **C10** witness: the panic characterization evaluated at a 33-byte
suffix (panic) and implicitly, through the iff, at the stored 32-byte
extranonce. -/
theorem claim_C10_witness :
    CompleteJob.validate_target wJobLTB 0 2 0 (some (List.replicate 33 0)) = none ↔
    ¬ (wJobLTB.extranonce.length = 32 ∧ (List.replicate 33 0).length ≤ 32) :=
  claim_C10 wJobLTB 0 2 0 (List.replicate 33 0)

/-- On a `LessThanBitcoinTarget` result the returned job is the input job
with `new_shares_sum` incremented. -/
theorem validate_target_state_LTB (j : CompleteJob) (nonce version ntime : Nat)
    (sfx : Option (List Nat)) (hB : List Nat) (n : Nat) (sol : SubmitSolutionM)
    (j2 : CompleteJob)
    (h : CompleteJob.validate_target j nonce version ntime sfx =
      some (VelideateTargetResult.LessThanBitcoinTarget hB n sol, j2)) :
    j2 = { j with new_shares_sum := j.new_shares_sum + 1 } := by
  simp only [CompleteJob.validate_target] at h
  split at h
  · simp at h
  · split at h
    · simp only [Option.some.injEq, Prod.mk.injEq] at h
      exact h.2.symm
    · split at h <;> simp at h

/-- On a `LessThanDownstreamTarget` result the returned job is the input job
with `new_shares_sum` incremented. -/
theorem validate_target_state_LTD (j : CompleteJob) (nonce version ntime : Nat)
    (sfx : Option (List Nat)) (hB : List Nat) (n : Nat) (j2 : CompleteJob)
    (h : CompleteJob.validate_target j nonce version ntime sfx =
      some (VelideateTargetResult.LessThanDownstreamTarget hB n, j2)) :
    j2 = { j with new_shares_sum := j.new_shares_sum + 1 } := by
  simp only [CompleteJob.validate_target] at h
  split at h
  · simp at h
  · split at h
    · simp at h
    · split at h
      · simp only [Option.some.injEq, Prod.mk.injEq] at h
        exact h.2.symm
      · simp at h

/-- On an `Invalid` result the returned job is the input job unchanged. -/
theorem validate_target_state_inv (j : CompleteJob) (nonce version ntime : Nat)
    (sfx : Option (List Nat)) (hB : List Nat) (j2 : CompleteJob)
    (h : CompleteJob.validate_target j nonce version ntime sfx =
      some (VelideateTargetResult.Invalid hB, j2)) :
    j2 = j := by
  simp only [CompleteJob.validate_target] at h
  split at h
  · simp at h
  · split at h
    · simp at h
    · split at h
      · simp at h
      · simp only [Option.some.injEq, Prod.mk.injEq] at h
        exact h.2.symm

/-- Lookup after updating every job of a table commutes with updating the
looked-up job. -/
theorem alookup_map_updateJob (d : List (Nat × Job)) (e : ExtJobMsg) (nb : Nat)
    (ph : List Nat) (tid : Nat) (c : Nat) :
    alookup (d.map (fun p : Nat × Job => (p.1, Job.updateJob p.2 e nb ph tid))) c =
    (alookup d c).map (fun jb => Job.updateJob jb e nb ph tid) := by
  induction d with
  | nil => simp [alookup]
  | cons a d ih =>
      by_cases h : a.1 = c <;> simp [alookup_cons, h, ih]

/-- **C5**: `check_target` returns `Err` exactly when the channel has no job
or a `Partial` job; any `Err` outcome carries the state unchanged; and in
the `Invalid` case every job (hence every `new_shares_sum`) and every other
field is unchanged. -/
theorem claim_C5 (d : DownstreamSt) (c nonce version ntime : Nat)
    (sfx : Option (List Nat)) :
    (Downstream.check_target d c nonce version ntime sfx = some (Except.error (), d) ↔
      (alookup d.jobs c = none ∨ ∃ p, alookup d.jobs c = some (Job.Part p))) ∧
    (∀ d', Downstream.check_target d c nonce version ntime sfx =
        some (Except.error (), d') → d' = d) ∧
    (∀ hB d', Downstream.check_target d c nonce version ntime sfx =
        some (Except.ok (VelideateTargetResult.Invalid hB), d') →
      (∀ ch, alookup d'.jobs ch = alookup d.jobs ch) ∧
      d'.future_jobs = d.future_jobs ∧
      d'.last_prev_hash = d.last_prev_hash ∧
      d'.last_nbits = d.last_nbits ∧
      d'.last_valid_extended_job = d.last_valid_extended_job) := by
  cases hj : alookup d.jobs c with
  | none =>
      refine ⟨by simp [Downstream.check_target, hj], ?_, ?_⟩
      · intro d' h
        simp only [Downstream.check_target, hj, Option.some.injEq, Prod.mk.injEq] at h
        exact h.2.symm
      · intro hB d' h
        simp [Downstream.check_target, hj] at h
  | some jb =>
      cases jb with
      | Part p =>
          refine ⟨by simp [Downstream.check_target, hj], ?_, ?_⟩
          · intro d' h
            simp only [Downstream.check_target, hj, Option.some.injEq, Prod.mk.injEq] at h
            exact h.2.symm
          · intro hB d' h
            simp [Downstream.check_target, hj] at h
      | Comp job =>
          refine ⟨?_, ?_, ?_⟩
          · cases hv : CompleteJob.validate_target job nonce version ntime sfx with
            | none => simp [Downstream.check_target, hj, hv]
            | some rp =>
                obtain ⟨res, job2⟩ := rp
                simp [Downstream.check_target, hj, hv]
          · intro d' h
            simp only [Downstream.check_target, hj] at h
            cases hv : CompleteJob.validate_target job nonce version ntime sfx with
            | none => rw [hv] at h; simp at h
            | some rp =>
                obtain ⟨res, job2⟩ := rp
                rw [hv] at h
                simp at h
          · intro hB d' h
            simp only [Downstream.check_target, hj] at h
            cases hv : CompleteJob.validate_target job nonce version ntime sfx with
            | none => rw [hv] at h; simp at h
            | some rp =>
                obtain ⟨res, job2⟩ := rp
                rw [hv] at h
                simp only [Option.some.injEq, Prod.mk.injEq] at h
                obtain ⟨hres, hd⟩ := h
                simp only [Except.ok.injEq] at hres
                subst hres
                have hst := validate_target_state_inv job nonce version ntime sfx hB job2 hv
                subst hst
                subst hd
                refine ⟨?_, rfl, rfl, rfl, rfl⟩
                intro ch
                show alookup (ainsert d.jobs c (Job.Comp job2)) ch = alookup d.jobs ch
                rw [alookup_ainsert]
                by_cases hch : c = ch
                · subst hch; rw [if_pos rfl, hj]
                · rw [if_neg hch]

/-- **C5** witness: the characterization evaluated on the concrete
downstream `wDown` at a channel with no job. -/
theorem claim_C5_witness :
    (Downstream.check_target wDown 2 0 2 0 none = some (Except.error (), wDown) ↔
      (alookup wDown.jobs 2 = none ∨ ∃ p, alookup wDown.jobs 2 = some (Job.Part p))) ∧
    (∀ d', Downstream.check_target wDown 2 0 2 0 none =
        some (Except.error (), d') → d' = wDown) ∧
    (∀ hB d', Downstream.check_target wDown 2 0 2 0 none =
        some (Except.ok (VelideateTargetResult.Invalid hB), d') →
      (∀ ch, alookup d'.jobs ch = alookup wDown.jobs ch) ∧
      d'.future_jobs = wDown.future_jobs ∧
      d'.last_prev_hash = wDown.last_prev_hash ∧
      d'.last_nbits = wDown.last_nbits ∧
      d'.last_valid_extended_job = wDown.last_valid_extended_job) :=
  claim_C5 wDown 2 0 2 0 none

/-- **C6**: when `check_target` on channel `c` returns
`LessThanBitcoinTarget`, the channel held a complete job, it is demoted to a
`Partial` job with the same target and extranonce, and every other channel
is untouched. -/
theorem claim_C6 (d : DownstreamSt) (c nonce version ntime : Nat)
    (sfx : Option (List Nat)) (hB : List Nat) (n : Nat) (sol : SubmitSolutionM)
    (d' : DownstreamSt)
    (h : Downstream.check_target d c nonce version ntime sfx =
      some (Except.ok (VelideateTargetResult.LessThanBitcoinTarget hB n sol), d')) :
    ∃ cj : CompleteJob, alookup d.jobs c = some (Job.Comp cj) ∧
      alookup d'.jobs c = some (Job.Part { target := cj.target, extranonce := cj.extranonce }) ∧
      (∀ ch, ch ≠ c → alookup d'.jobs ch = alookup d.jobs ch) := by
  cases hj : alookup d.jobs c with
  | none => simp [Downstream.check_target, hj] at h
  | some jb =>
      cases jb with
      | Part p => simp [Downstream.check_target, hj] at h
      | Comp job =>
          simp only [Downstream.check_target, hj] at h
          cases hv : CompleteJob.validate_target job nonce version ntime sfx with
          | none => rw [hv] at h; simp at h
          | some rp =>
              obtain ⟨res, job2⟩ := rp
              rw [hv] at h
              simp only [Option.some.injEq, Prod.mk.injEq] at h
              obtain ⟨hres, hd⟩ := h
              simp only [Except.ok.injEq] at hres
              subst hres
              have hst := validate_target_state_LTB job nonce version ntime sfx hB n sol job2 hv
              subst hd
              refine ⟨job, rfl, ?_, ?_⟩
              · show alookup (ainsert d.jobs c (Job.makePart (Job.Comp job2))) c =
                  some (Job.Part { target := job.target, extranonce := job.extranonce })
                rw [alookup_ainsert, if_pos rfl, hst]
                rfl
              · intro ch hch
                show alookup (ainsert d.jobs c (Job.makePart (Job.Comp job2))) ch =
                  alookup d.jobs ch
                rw [alookup_ainsert, if_neg (fun hh => hch hh.symm)]

/-- **C6** witness: the demotion evaluated on the concrete network-target
share against `wDown`. -/
theorem claim_C6_witness :
    ∃ cj : CompleteJob, alookup wDown.jobs 1 = some (Job.Comp cj) ∧
      alookup wDownAfter.jobs 1 =
        some (Job.Part { target := cj.target, extranonce := cj.extranonce }) ∧
      (∀ ch, ch ≠ 1 → alookup wDownAfter.jobs ch = alookup wDown.jobs ch) :=
  claim_C6 wDown 1 0 2 0 (some [1]) wHashLTB 1 wSolLTB wDownAfter (by decide)

/-- **C7**: after `on_new_prev_hash_sync`, `future_jobs` is empty and the
previous hash and nbits are latched; and when the message names a stored
future job, every job in the table is `Complete` with that future job's
template id, the message previous hash and the message nbits. -/
theorem claim_C7 (d : DownstreamSt) (m : PrevHashMsg) :
    (Downstream.on_new_prev_hash_sync d m).future_jobs = [] ∧
    (Downstream.on_new_prev_hash_sync d m).last_prev_hash = some m.prev_hash ∧
    (Downstream.on_new_prev_hash_sync d m).last_nbits = some m.nbits ∧
    (∀ fj, alookup d.future_jobs m.job_id = some fj →
      ∀ c jb, alookup (Downstream.on_new_prev_hash_sync d m).jobs c = some jb →
        ∃ cj : CompleteJob, jb = Job.Comp cj ∧ cj.template_id = fj.2 ∧
          cj.prev_hash = m.prev_hash ∧ cj.nbits = m.nbits) := by
  refine ⟨rfl, rfl, rfl, ?_⟩
  intro fj hfj c jb hjb
  have hjb2 : alookup (d.jobs.map (fun p : Nat × Job =>
      (p.1, Job.updateJob p.2 fj.1 m.nbits m.prev_hash fj.2))) c = some jb := by
    unfold Downstream.on_new_prev_hash_sync at hjb
    rw [hfj] at hjb
    exact hjb
  rw [alookup_map_updateJob, Option.map_eq_some'] at hjb2
  obtain ⟨jb0, hjb0, hjbeq⟩ := hjb2
  subst hjbeq
  cases jb0 with
  | Part p => exact ⟨_, rfl, rfl, rfl, rfl⟩
  | Comp cj => exact ⟨_, rfl, rfl, rfl, rfl⟩

/-- **C7** witness: the promotion evaluated on the concrete downstream
`c7Down` (one `Partial` job, one future job) and message `c7Msg`. -/
theorem claim_C7_witness :
    (Downstream.on_new_prev_hash_sync c7Down c7Msg).future_jobs = [] ∧
    (Downstream.on_new_prev_hash_sync c7Down c7Msg).last_prev_hash = some c7Msg.prev_hash ∧
    (Downstream.on_new_prev_hash_sync c7Down c7Msg).last_nbits = some c7Msg.nbits ∧
    (∀ fj, alookup c7Down.future_jobs c7Msg.job_id = some fj →
      ∀ c jb, alookup (Downstream.on_new_prev_hash_sync c7Down c7Msg).jobs c = some jb →
        ∃ cj : CompleteJob, jb = Job.Comp cj ∧ cj.template_id = fj.2 ∧
          cj.prev_hash = c7Msg.prev_hash ∧ cj.nbits = c7Msg.nbits) :=
  claim_C7 c7Down c7Msg

/-- **C8**: `new_shares_sum` is incremented by exactly 1 on
`LessThanBitcoinTarget` and `LessThanDownstreamTarget` and unchanged on
`Invalid` (hence never decreases across any sequence of validations while
the job stays `Complete`), and every transition into `Complete` —
`to_complete_standard_job` from `Partial`, and `update_job` on an existing
`Complete` job, including re-promotion after a block find — resets it to 0. -/
theorem claim_C8 :
    (∀ (j : CompleteJob) (nonce version ntime : Nat) (sfx : Option (List Nat))
        (r : VelideateTargetResult) (j2 : CompleteJob),
      CompleteJob.validate_target j nonce version ntime sfx = some (r, j2) →
      j.new_shares_sum ≤ j2.new_shares_sum ∧
      ((r.isLTB = true ∨ r.isLTD = true) → j2.new_shares_sum = j.new_shares_sum + 1) ∧
      (r.isLTB = false → r.isLTD = false → j2.new_shares_sum = j.new_shares_sum)) ∧
    (∀ (j j' : CompleteJob) (shares : List (Nat × Nat × Nat × Option (List Nat))),
      applyShares j shares = some j' → j.new_shares_sum ≤ j'.new_shares_sum) ∧
    (∀ (p : PartialJob) (e : ExtJobMsg) (nb : Nat) (ph : List Nat) (tid : Nat),
      (PartialJob.to_complete_standard_job p e nb ph tid).new_shares_sum = 0) ∧
    (∀ (j : CompleteJob) (e : ExtJobMsg) (nb : Nat) (ph : List Nat) (tid : Nat),
      (CompleteJob.update_job j e nb ph tid).new_shares_sum = 0) := by
  refine ⟨?_, ?_, fun _ _ _ _ _ => rfl, fun _ _ _ _ _ => rfl⟩
  · intro j nonce version ntime sfx r j2 h
    cases r with
    | LessThanBitcoinTarget hB n sol =>
        have hst := validate_target_state_LTB j nonce version ntime sfx hB n sol j2 h
        subst hst
        exact ⟨Nat.le_succ _, fun _ => rfl,
          fun hf _ => absurd hf (by simp [VelideateTargetResult.isLTB])⟩
    | LessThanDownstreamTarget hB n =>
        have hst := validate_target_state_LTD j nonce version ntime sfx hB n j2 h
        subst hst
        exact ⟨Nat.le_succ _, fun _ => rfl,
          fun _ hf => absurd hf (by simp [VelideateTargetResult.isLTD])⟩
    | Invalid hB =>
        have hst := validate_target_state_inv j nonce version ntime sfx hB j2 h
        subst hst
        refine ⟨Nat.le_refl _, ?_, fun _ _ => rfl⟩
        intro hor
        rcases hor with h1 | h1 <;>
          simp [VelideateTargetResult.isLTB, VelideateTargetResult.isLTD] at h1
  · intro j j' shares
    induction shares generalizing j with
    | nil =>
        intro h
        simp only [applyShares, Option.some.injEq] at h
        subst h
        exact Nat.le_refl _
    | cons a rest ih =>
        intro h
        simp only [applyShares] at h
        cases hv : CompleteJob.validate_target j a.1 a.2.1 a.2.2.1 a.2.2.2 with
        | none => rw [hv] at h; simp at h
        | some rp =>
            obtain ⟨r, j2⟩ := rp
            rw [hv] at h
            have hmono : j.new_shares_sum ≤ j2.new_shares_sum := by
              cases r with
              | LessThanBitcoinTarget hB n sol =>
                  rw [validate_target_state_LTB j _ _ _ _ hB n sol j2 hv]
                  exact Nat.le_succ _
              | LessThanDownstreamTarget hB n =>
                  rw [validate_target_state_LTD j _ _ _ _ hB n j2 hv]
                  exact Nat.le_succ _
              | Invalid hB =>
                  rw [validate_target_state_inv j _ _ _ _ hB j2 hv]
            exact Nat.le_trans hmono (ih j2 h)

/-- **C8** witness: the increments evaluated on a concrete validation and a
concrete two-share sequence, and the resets on concrete job updates. -/
theorem claim_C8_witness :
    (wJobLTB.new_shares_sum ≤ wOutNone.2.new_shares_sum ∧
      ((wOutNone.1.isLTB = true ∨ wOutNone.1.isLTD = true) →
        wOutNone.2.new_shares_sum = wJobLTB.new_shares_sum + 1) ∧
      (wOutNone.1.isLTB = false → wOutNone.1.isLTD = false →
        wOutNone.2.new_shares_sum = wJobLTB.new_shares_sum)) ∧
    wJobLTB.new_shares_sum ≤ c8Out.new_shares_sum ∧
    (PartialJob.to_complete_standard_job { target := 0, extranonce := [] }
      c1New 0 [] 7).new_shares_sum = 0 ∧
    (CompleteJob.update_job c1Old c1New 0 [] 7).new_shares_sum = 0 :=
  ⟨claim_C8.1 wJobLTB 5 2 0 none wOutNone.1 wOutNone.2 rfl,
   claim_C8.2.1 wJobLTB c8Out c8Shares rfl,
   claim_C8.2.2.1 { target := 0, extranonce := [] } c1New 0 [] 7,
   claim_C8.2.2.2 c1Old c1New 0 [] 7⟩

/-- `on_new_prev_hash_sync` never touches `last_valid_extended_job`. -/
theorem on_new_prev_hash_sync_lvj (d : DownstreamSt) (m : PrevHashMsg) :
    (Downstream.on_new_prev_hash_sync d m).last_valid_extended_job =
    d.last_valid_extended_job := by
  unfold Downstream.on_new_prev_hash_sync
  cases hfj : alookup d.future_jobs m.job_id <;> simp [hfj]

/-- `check_target` only ever touches the job table. -/
theorem check_target_frame (d : DownstreamSt) (c nonce version ntime : Nat)
    (sfx : Option (List Nat)) (res : Except Unit VelideateTargetResult)
    (d2 : DownstreamSt)
    (h : Downstream.check_target d c nonce version ntime sfx = some (res, d2)) :
    d2.future_jobs = d.future_jobs ∧ d2.last_prev_hash = d.last_prev_hash ∧
    d2.last_nbits = d.last_nbits ∧
    d2.last_valid_extended_job = d.last_valid_extended_job := by
  cases hj : alookup d.jobs c with
  | none =>
      simp only [Downstream.check_target, hj, Option.some.injEq, Prod.mk.injEq] at h
      obtain ⟨_, hd⟩ := h
      subst hd
      exact ⟨rfl, rfl, rfl, rfl⟩
  | some jb =>
      cases jb with
      | Part p =>
          simp only [Downstream.check_target, hj, Option.some.injEq, Prod.mk.injEq] at h
          obtain ⟨_, hd⟩ := h
          subst hd
          exact ⟨rfl, rfl, rfl, rfl⟩
      | Comp job =>
          simp only [Downstream.check_target, hj] at h
          cases hv : CompleteJob.validate_target job nonce version ntime sfx with
          | none => rw [hv] at h; simp at h
          | some rp =>
              obtain ⟨r, j2⟩ := rp
              rw [hv] at h
              simp only [Option.some.injEq, Prod.mk.injEq] at h
              obtain ⟨_, hd⟩ := h
              subst hd
              exact ⟨rfl, rfl, rfl, rfl⟩

/-- No downstream event changes `last_valid_extended_job`. -/
theorem dsStep_lvj (d : DownstreamSt) (e : DsEvent) (d2 : DownstreamSt)
    (h : dsStep d e = some d2) :
    d2.last_valid_extended_job = d.last_valid_extended_job := by
  cases e with
  | extJob m tid =>
      simp only [dsStep, Downstream.on_new_extended_job] at h
      split at h
      · split at h
        · simp only [Option.some.injEq] at h
          subst h
          rfl
        · split at h
          · simp only [Option.some.injEq] at h
            subst h
            rfl
          · simp at h
      · simp only [Option.some.injEq] at h
        subst h
        rfl
  | prevHash m =>
      simp only [dsStep, Option.some.injEq] at h
      subst h
      exact on_new_prev_hash_sync_lvj d m
  | openChannel c t e =>
      simp only [dsStep, Option.some.injEq] at h
      subst h
      rfl
  | share c n v t sfx =>
      simp only [dsStep] at h
      rw [Option.map_eq_some'] at h
      obtain ⟨p, hp, hd2⟩ := h
      subst hd2
      exact (check_target_frame d c n v t sfx p.1 p.2 hp).2.2.2

/-- Along any panic-free run, `last_valid_extended_job` stays what it was. -/
theorem dsRun_lvj (evs : List DsEvent) : ∀ (d d2 : DownstreamSt),
    dsRun d evs = some d2 →
    d2.last_valid_extended_job = d.last_valid_extended_job := by
  induction evs with
  | nil =>
      intro d d2 h
      simp only [dsRun, Option.some.injEq] at h
      subst h
      rfl
  | cons e rest ih =>
      intro d d2 h
      simp only [dsRun] at h
      cases hs : dsStep d e with
      | none => rw [hs] at h; simp at h
      | some dmid =>
          rw [hs] at h
          rw [ih dmid d2 h, dsStep_lvj d e dmid hs]

/-- The construction value of `last_valid_extended_job` is `Some` exactly
under the `newStateLvjSome` characterization. -/
theorem new_state_lvj (ejs : List (ExtJobMsg × Nat)) (lph : Option PrevHashTD)
    (jio : Nat → Nat) :
    (Downstream.new_state ejs lph jio).last_valid_extended_job.isSome =
    newStateLvjSome ejs lph jio := by
  have hfold : ∀ (acc : Option (ExtJobMsg × Nat)),
      (List.foldl (fun (acc : Option (ExtJobMsg × Nat)) (jb : ExtJobMsg × Nat) => if jb.1.future_job then acc else some jb) acc ejs).isSome =
      (acc.isSome || ejs.any (fun jb => !jb.1.future_job)) := by
    induction ejs with
    | nil => intro acc; simp
    | cons a rest ih =>
        intro acc
        cases hfa : a.1.future_job <;>
          simp [List.foldl_cons, List.any_cons, hfa, ih]
  cases lph with
  | none =>
      show (match List.foldl (fun (acc : Option (ExtJobMsg × Nat)) (jb : ExtJobMsg × Nat) =>
          if jb.1.future_job then acc else some jb) none ejs, (none : Option PrevHashTD) with
        | none, some ph =>
            (ejs.find? (fun jb : ExtJobMsg × Nat => jb.1.job_id == jio ph.template_id)).map
              (fun jb : ExtJobMsg × Nat => (jb.1, ph.template_id))
        | x, _ => x).isSome = newStateLvjSome ejs none jio
      cases hl0 : List.foldl (fun (acc : Option (ExtJobMsg × Nat)) (jb : ExtJobMsg × Nat) =>
          if jb.1.future_job then acc else some jb) none ejs with
      | none =>
          have h2 := hfold none
          rw [hl0] at h2
          simp only [Option.isSome_none, Option.isSome_some, Bool.false_or] at h2
          simp [newStateLvjSome, ← h2]
      | some x =>
          have h2 := hfold none
          rw [hl0] at h2
          simp only [Option.isSome_none, Option.isSome_some, Bool.false_or] at h2
          simp [newStateLvjSome, ← h2]
  | some ph =>
      show (Downstream.on_new_prev_hash_sync _ _).last_valid_extended_job.isSome = _
      rw [on_new_prev_hash_sync_lvj]
      show (match List.foldl (fun (acc : Option (ExtJobMsg × Nat)) (jb : ExtJobMsg × Nat) =>
          if jb.1.future_job then acc else some jb) none ejs, (some ph : Option PrevHashTD) with
        | none, some ph =>
            (ejs.find? (fun jb : ExtJobMsg × Nat => jb.1.job_id == jio ph.template_id)).map
              (fun jb : ExtJobMsg × Nat => (jb.1, ph.template_id))
        | x, _ => x).isSome = newStateLvjSome ejs (some ph) jio
      cases hl0 : List.foldl (fun (acc : Option (ExtJobMsg × Nat)) (jb : ExtJobMsg × Nat) =>
          if jb.1.future_job then acc else some jb) none ejs with
      | none =>
          have h2 := hfold none
          rw [hl0] at h2
          simp only [Option.isSome_none, Option.isSome_some, Bool.false_or] at h2
          cases hfind : ejs.find? (fun jb : ExtJobMsg × Nat =>
              jb.1.job_id == jio ph.template_id) <;>
            simp [newStateLvjSome, ← h2, hfind]
      | some x =>
          have h2 := hfold none
          rw [hl0] at h2
          simp only [Option.isSome_none, Option.isSome_some, Bool.false_or] at h2
          simp [newStateLvjSome, ← h2]

/-- **C4** (counterexample): construct a downstream from one future initial
job and no known previous hash, then deliver a non-future extended job.  The
run observes a non-future job (observation flag `true`, initial observation
`false`), yet `last_valid_extended_job` is still `none`:
`on_new_extended_job` never sets it, so "`Some` iff a non-future job was
observed or a prev-hash activated a future job" fails on this reachable
state. -/
theorem claim_C4_counterexample :
    initialObservedOrActivated [(c4FutureJob, 5)] none (fun _ => 0) = false ∧
    obsRun c4Init false [DsEvent.extJob c4NonFutureJob 6] = some (c4Init, true) ∧
    c4Init.last_valid_extended_job = none := by
  refine ⟨rfl, rfl, rfl⟩

/-- **C4** (amended): `last_valid_extended_job` is decided at construction —
`Some` iff the initial batch holds a non-future job, or every initial job is
future and a known previous hash maps (through the job creator) to the id of
an initial job — and no later event (`on_new_extended_job`,
`on_new_prev_hash_sync`, channel opening, share checking) ever changes it. -/
theorem claim_C4_amended (ejs : List (ExtJobMsg × Nat)) (lph : Option PrevHashTD)
    (jio : Nat → Nat) (evs : List DsEvent) (d' : DownstreamSt)
    (h : dsRun (Downstream.new_state ejs lph jio) evs = some d') :
    d'.last_valid_extended_job =
      (Downstream.new_state ejs lph jio).last_valid_extended_job ∧
    (Downstream.new_state ejs lph jio).last_valid_extended_job.isSome =
      newStateLvjSome ejs lph jio :=
  ⟨dsRun_lvj evs _ d' h, new_state_lvj ejs lph jio⟩

/-- **C4** witness: the amended claim evaluated on the concrete
counterexample run. -/
theorem claim_C4_witness :
    c4Init.last_valid_extended_job =
      (Downstream.new_state [(c4FutureJob, 5)] none (fun _ => 0)).last_valid_extended_job ∧
    (Downstream.new_state [(c4FutureJob, 5)] none
        (fun _ => 0)).last_valid_extended_job.isSome =
      newStateLvjSome [(c4FutureJob, 5)] none (fun _ => 0) :=
  claim_C4_amended [(c4FutureJob, 5)] none (fun _ => 0)
    [DsEvent.extJob c4NonFutureJob 6] c4Init rfl

/-- The barrier invariant: when `new_template_processed` is set, strictly
more template fan-outs have completed than prev-hash fan-outs have begun;
and prev-hash fan-outs never outnumber completed template fan-outs. -/
theorem poolReachable_invariant (s : PoolSync) (h : PoolReachable s) :
    (s.new_template_processed = true →
      s.prevHashesBegun + 1 ≤ s.templatesDone) ∧
    s.prevHashesBegun ≤ s.templatesDone := by
  induction h with
  | init => exact ⟨fun hf => Bool.noConfusion hf, Nat.le_refl 0⟩
  | @step s' t' hr hstep ih =>
      cases hstep with
      | tStart hs => exact ih
      | tFinish hs =>
          constructor
          · intro _
            show s'.prevHashesBegun + 1 ≤ s'.templatesDone + 1
            have h2 := ih.2
            omega
          · show s'.prevHashesBegun ≤ s'.templatesDone + 1
            have h2 := ih.2
            omega
      | pPoll hs1 hs2 => exact ih
      | pBegin hs1 hs2 =>
          have h1 := ih.1 hs2
          constructor
          · intro hflag
            exact Bool.noConfusion hflag
          · show s'.prevHashesBegun + 1 ≤ s'.templatesDone
            omega
      | pFinish hs => exact ih

/-- **C9**: in every interleaving of the two fan-out loops, a step that
begins the prev-hash fan-out (its program counter moves from idle to
fanout) happens only when `new_template_processed` is true, resets the flag
to false, and leaves the count of begun prev-hash fan-outs no larger than
the count of completed template fan-outs — so the fan-out for a prev-hash
never begins before the preceding template fan-out has finished. -/
theorem claim_C9 (s t : PoolSync) (hr : PoolReachable s) (hstep : PoolStep s t)
    (hbegin : s.pPhase = PPhase.idle ∧ t.pPhase = PPhase.fanout) :
    s.new_template_processed = true ∧ t.new_template_processed = false ∧
    t.prevHashesBegun ≤ t.templatesDone := by
  cases hstep with
  | tStart hs =>
      have h2 : s.pPhase = PPhase.fanout := hbegin.2
      exact PPhase.noConfusion (hbegin.1.symm.trans h2)
  | tFinish hs =>
      have h2 : s.pPhase = PPhase.fanout := hbegin.2
      exact PPhase.noConfusion (hbegin.1.symm.trans h2)
  | pPoll hs1 hs2 =>
      exact PPhase.noConfusion (hbegin.1.symm.trans hbegin.2)
  | pFinish hs =>
      exact PPhase.noConfusion (hbegin.1.symm.trans hs)
  | pBegin hs1 hs2 =>
      refine ⟨hs2, rfl, ?_⟩
      have h1 := (poolReachable_invariant s hr).1 hs2
      show s.prevHashesBegun + 1 ≤ s.templatesDone
      omega

/-- **C9** witness: the barrier property evaluated on the concrete
reachable state after one template fan-out, at the step that begins the
prev-hash fan-out. -/
theorem claim_C9_witness :
    c9AfterTemplate.new_template_processed = true ∧
    c9AfterBegin.new_template_processed = false ∧
    c9AfterBegin.prevHashesBegun ≤ c9AfterBegin.templatesDone :=
  claim_C9 c9AfterTemplate c9AfterBegin
    (PoolReachable.step
      (PoolReachable.step PoolReachable.init (PoolStep.tStart PoolSync.init rfl))
      (PoolStep.tFinish { PoolSync.init with tPhase := TPhase.fanout } rfl))
    (PoolStep.pBegin c9AfterTemplate rfl rfl)
    ⟨rfl, rfl⟩
